import Mathlib

/-!
Verification of the tensor-graph memory and aliasing core of the hannk
interpreter (apps/hannk/interpreter/model.cpp): TensorStorage, Tensor and
Model, with their bounds-union sizing, lazy allocation, aliasing, graph
insertion and clone-with-selective-sharing operations.

The embedding is a shallow one.  Machine pointers become indices into an
explicit heap (`State`), so shared_ptr identity is index identity; `assert`
failures become `none` in `Option`-valued operations; buffers carry an
allocation token that is `some` exactly when the C++ buffer's data pointer
is non-null.
-/

set_option maxHeartbeats 1000000

namespace ModelSpec

/-- Scalar type descriptor (halide_type_t): element-kind code, bit width, lanes. -/
structure HalideType where
  code : Nat
  bits : Nat
  lanes : Nat
deriving DecidableEq, Repr

/-- One dimension's inclusive bounds (hannk's Interval). -/
structure Interval where
  min : Int
  max : Int
deriving DecidableEq, Repr

/-- Number of elements spanned by an interval: max - min + 1. -/
def Interval.extent (i : Interval) : Int := i.max - i.min + 1

/-- A Box is an ordered sequence of per-dimension bounds. -/
abbrev Box := List Interval

/-- Shallow model of HalideBuffer<void>: element type, per-dimension bounds and an
allocation token that is `some` iff the C++ data() pointer is non-null. -/
structure HBuffer where
  type : HalideType
  dims : List Interval
  data : Option Nat
deriving DecidableEq, Repr

/-- Buffer dimension count. -/
def HBuffer.dimensions (b : HBuffer) : Nat := b.dims.length

/-- make_buffer(type, bounds): builds a buffer whose dimension i has extent
bounds[i].extent(), then translates dimension i by bounds[i].min, so dimension i
spans [bounds[i].min, bounds[i].min + bounds[i].extent() - 1].  Unallocated. -/
def make_buffer (type : HalideType) (bounds : Box) : HBuffer :=
  { type := type
    dims := bounds.map (fun iv => { min := iv.min, max := iv.min + iv.extent - 1 })
    data := none }

/-- Buffer::make_with_shape_of: a fresh allocation with the same type and shape. -/
def HBuffer.make_with_shape_of (b : HBuffer) (fresh : Nat) : HBuffer :=
  { type := b.type, dims := b.dims, data := some fresh }

/-- TensorStorage: owns a lazily allocated buffer; pre-allocation the buffer records
the union of all requested bounds. -/
structure TensorStorage where
  buffer_ : HBuffer
deriving DecidableEq, Repr

/-- TensorStorage::TensorStorage(): the default storage (no dimensions, unallocated). -/
def TensorStorage.empty : TensorStorage :=
  { buffer_ := { type := { code := 0, bits := 0, lanes := 0 }, dims := [], data := none } }

/-- TensorStorage::rank(). -/
def TensorStorage.rank (s : TensorStorage) : Nat := s.buffer_.dimensions

/-- TensorStorage::is_allocated(): whether a backing buffer exists. -/
def TensorStorage.is_allocated (s : TensorStorage) : Bool := s.buffer_.data.isSome

/-- Per-dimension union of two bounds. -/
def Interval.union (a b : Interval) : Interval :=
  { min := Min.min a.min b.min, max := Max.max a.max b.max }

/-- Union of two boxes, dimension by dimension. -/
def boxUnion (a b : Box) : Box := List.zipWith Interval.union a b

/-- TensorStorage::add_use(type, bounds): a first use (zero-dimensional buffer) fixes
type/rank/bounds via make_buffer; a later use requires matching type and rank on a
still-unallocated buffer (assertion failure otherwise) and expands the buffer's bounds
to the per-dimension union with the new bounds. -/
def TensorStorage.add_use (s : TensorStorage) (type : HalideType) (bounds : Box) :
    Option TensorStorage :=
  if s.buffer_.dimensions = 0 then
    some { buffer_ := make_buffer type bounds }
  else if s.buffer_.type = type ∧ s.buffer_.dimensions = bounds.length ∧
      s.buffer_.data = none then
    some { buffer_ := { s.buffer_ with dims := boxUnion s.buffer_.dims bounds } }
  else
    none

/-- TensorStorage::allocate(): idempotent; on first call materializes a buffer with the
current shape. -/
def TensorStorage.allocate (s : TensorStorage) (fresh : Nat) : TensorStorage :=
  if s.buffer_.data.isSome then s
  else { buffer_ := s.buffer_.make_with_shape_of fresh }

/-- A sequence of add_use calls with one fixed type, applied in order. -/
def TensorStorage.add_uses (s : TensorStorage) (type : HalideType) (boxes : List Box) :
    Option TensorStorage :=
  boxes.foldlM (fun acc b => acc.add_use type b) s

/-- Modelled from the spec: quantization metadata is opaque to this core (scale/zero
point data), only stored and copied; represented by an abstract token. -/
structure QuantizationInfo where
  tag : Nat
deriving DecidableEq, Repr

/-- Tensor: a named, typed, bounded view.  buffer_ is the private view buffer; storage_
is an optional reference (heap index) to a shared TensorStorage. -/
structure Tensor where
  name_ : String
  buffer_ : HBuffer
  quantization_ : QuantizationInfo
  is_constant_ : Bool
  storage_ : Option Nat
deriving DecidableEq, Repr

/-- Tensor::Tensor(name, buffer, quantization): constant iff the buffer holds data. -/
def Tensor.make (name : String) (buffer : HBuffer) (quantization : QuantizationInfo) :
    Tensor :=
  { name_ := name, buffer_ := buffer, quantization_ := quantization,
    is_constant_ := buffer.data.isSome, storage_ := none }

/-- Tensor::Tensor(name, type, bounds, quantization): delegates through make_buffer. -/
def Tensor.makeTyped (name : String) (type : HalideType) (bounds : Box)
    (q : QuantizationInfo) : Tensor :=
  Tensor.make name (make_buffer type bounds) q

/-- Modelled from the spec: Tensor::type() accessor (declared in model.h, which is not
in the sources) — the element type of the tensor's buffer. -/
def Tensor.type (t : Tensor) : HalideType := t.buffer_.type

/-- Modelled from the spec: Tensor::box() accessor (declared in model.h, which is not
in the sources) — the tensor's own declared bounds. -/
def Tensor.box (t : Tensor) : Box := t.buffer_.dims

/-- Tensor::is_allocated(). -/
def Tensor.is_allocated (t : Tensor) : Bool := t.buffer_.data.isSome

/-- Modelled from the spec: the Tensor copy constructor used by Model's clone (declared
in model.h, which is not in the sources) — the fresh copy keeps name, type, bounds and
quantization but has no storage binding yet. -/
def Tensor.clone (t : Tensor) : Tensor := { t with storage_ := none }

/-- The mutable heap: tensors and storages addressed by index.  shared_ptr identity in
the C++ is index identity here. -/
structure State where
  tensors : List Tensor
  storages : List TensorStorage
deriving DecidableEq, Repr

/-- Dereference a tensor pointer. -/
def State.getT (st : State) (tid : Nat) : Option Tensor := st.tensors.get? tid

/-- Write through a tensor pointer. -/
def State.setT (st : State) (tid : Nat) (t : Tensor) : State :=
  { st with tensors := st.tensors.set tid t }

/-- Dereference a storage pointer. -/
def State.getS (st : State) (sid : Nat) : Option TensorStorage := st.storages.get? sid

/-- Write through a storage pointer. -/
def State.setS (st : State) (sid : Nat) (s : TensorStorage) : State :=
  { st with storages := st.storages.set sid s }

/-- Tensor::storage(): returns the backing storage, creating a private one seeded from
this tensor's buffer if none is bound yet.  The TensorStorage constructor asserts the
seeding buffer holds no data, so a first call on a tensor whose buffer is populated
fails. -/
def Tensor.storageM (tid : Nat) (st : State) : Option (Nat × State) := do
  let t ← st.getT tid
  match t.storage_ with
  | some sid => pure (sid, st)
  | none =>
    if t.buffer_.data = none then
      let sid := st.storages.length
      let st1 : State := { st with storages := st.storages ++ [{ buffer_ := t.buffer_ }] }
      pure (sid, st1.setT tid { t with storage_ := some sid })
    else
      none

/-- The crop loop of Tensor::allocate: for each storage-buffer dimension, assert that it
contains the tensor's own bounds for that dimension and crop to those bounds. -/
def cropLoop : List Interval → List Interval → Option (List Interval)
  | [], _ => some []
  | sd :: sdims, od :: odims =>
    if sd.min ≤ od.min ∧ od.max ≤ sd.max then
      (cropLoop sdims odims).map (fun rest => od :: rest)
    else
      none
  | _ :: _, [] => none

/-- Tensor::allocate(): no-op when the tensor's buffer already holds data; otherwise
allocates the backing storage and makes the tensor's view the storage buffer cropped to
the tensor's own bounds on every dimension. -/
def Tensor.allocateM (tid : Nat) (fresh : Nat) (st : State) : Option State := do
  let t ← st.getT tid
  if t.buffer_.data.isSome then
    pure st
  else do
    let (sid, st1) ← Tensor.storageM tid st
    let t1 ← st1.getT tid
    let s ← st1.getS sid
    let s1 := s.allocate fresh
    let st2 := st1.setS sid s1
    let dims ← cropLoop s1.buffer_.dims t1.buffer_.dims
    pure (st2.setT tid { t1 with buffer_ := { s1.buffer_ with dims := dims } })

/-- Tensor::set_alias_of(t): adopt t's storage, then register this tensor's type and
bounds on it with add_use. -/
def Tensor.set_alias_ofM (aid bid : Nat) (st : State) : Option State := do
  let (sid, st1) ← Tensor.storageM bid st
  let a ← st1.getT aid
  let st2 := st1.setT aid { a with storage_ := some sid }
  let s ← st2.getS sid
  let s1 ← s.add_use a.type a.box
  pure (st2.setS sid s1)

/-- Op: the external op contract surface this core consumes — an identity plus input and
output tensor references (heap indices). -/
structure Op where
  oid : Nat
  inputs : List Nat
  outputs : List Nat
deriving DecidableEq, Repr

/-- TensorMap: mapping from original tensor to replacement; most recent entry first. -/
abbrev TensorMap := List (Nat × Nat)

/-- apply(map, t): the replacement tensor when the map has one, the tensor itself
otherwise. -/
def apply (map : TensorMap) (t : Nat) : Nat :=
  match map.find? (fun p => p.1 == t) with
  | some p => p.2
  | none => t

/-- Modelled from the spec: Op::clone(map) — implemented by op subclasses outside this
file — produces an op referencing apply(map, t) wherever the original references t. -/
def Op.clone (map : TensorMap) (op : Op) : Op :=
  { op with inputs := op.inputs.map (apply map), outputs := op.outputs.map (apply map) }

/-- Whether candidate op c consumes one of p's declared outputs (tensor pointer
equality, i.e. heap-index equality). -/
def consumes (c : Op) (p : Op) : Bool :=
  p.outputs.any (fun o => c.inputs.any (fun i => i == o))

/-- Model: the ordered tensor references and the ordered op list. -/
structure Model where
  tensors : List Nat
  ops : List Op
deriving DecidableEq, Repr

/-- Model::insert(tensor, after): insert immediately after the first occurrence of the
anchor; append at the end when the anchor is absent. -/
def insertTensorL : List Nat → Nat → Nat → List Nat
  | [], to_insert, _ => [to_insert]
  | x :: xs, to_insert, after =>
    if x == after then x :: to_insert :: xs
    else x :: insertTensorL xs to_insert after

/-- Model::insert(tensor, after), at the Model level. -/
def Model.insertTensor (m : Model) (to_insert : Nat) (after : Nat) : Model :=
  { m with tensors := insertTensorL m.tensors to_insert after }

/-- Model::insert(op, before): scan from the front; insert before the anchor when it is
reached, but insert before any earlier op that consumes one of the new op's outputs;
append at the end when neither is found. -/
def insertOpL : List Op → Op → Nat → List Op
  | [], to_insert, _ => [to_insert]
  | x :: xs, to_insert, before =>
    if x.oid == before then to_insert :: x :: xs
    else if consumes x to_insert then to_insert :: x :: xs
    else x :: insertOpL xs to_insert before

/-- Model::insert(op, before), at the Model level. -/
def Model.insertOp (m : Model) (to_insert : Op) (before : Nat) : Model :=
  { m with ops := insertOpL m.ops to_insert before }

/-- The predicate at which the insert scan stops: the anchor is reached or the op
consumes one of the new op's outputs. -/
def insAnchor (newOp : Op) (before : Nat) (x : Op) : Bool :=
  x.oid == before || consumes x newOp

/-- The ops at and after the position where insertOpL places the new op. -/
def insertSuffix (ops : List Op) (newOp : Op) (before : Nat) : List Op :=
  ops.dropWhile (fun x => !insAnchor newOp before x)

/-- The topological invariant on an op list: any op that consumes one of another op's
outputs appears strictly after it. -/
def TopoValid (ops : List Op) : Prop :=
  ∀ i j (hi : i < ops.length) (hj : j < ops.length),
    consumes (ops.get ⟨j, hj⟩) (ops.get ⟨i, hi⟩) = true → i < j

/-- outer covers inner: same rank and, dimension by dimension, outer's bounds contain
inner's. -/
def covers (outer inner : Box) : Prop :=
  List.Forall₂ (fun o n => o.min ≤ n.min ∧ n.max ≤ o.max) outer inner

/-- The tensor-cloning pass of the Model copy constructor: walk the copied tensor list;
keep every allocated tensor as the shared original, replace every unallocated tensor by
a fresh heap copy, recording original → copy in the map. -/
def Model.cloneTensors : List Nat → State → TensorMap → Option (List Nat × State × TensorMap)
  | [], st, map => pure ([], st, map)
  | tid :: rest, st, map => do
    let t ← st.tensors.get? tid
    if t.is_allocated then do
      let (ids, st', map') ← Model.cloneTensors rest st map
      pure (tid :: ids, st', map')
    else do
      let nid := st.tensors.length
      let st2 : State := { st with tensors := st.tensors ++ [Tensor.clone t] }
      let (ids, st', map') ← Model.cloneTensors rest st2 ((tid, nid) :: map)
      pure (nid :: ids, st', map')

/-- Model::Model(const Model &): copy the tensor list, clone the unallocated tensors,
then clone every op through the recorded tensor map. -/
def Model.clone (m : Model) (st : State) : Option (Model × State) := do
  let (ids, st', map) ← Model.cloneTensors m.tensors st []
  pure ({ tensors := ids, ops := m.ops.map (Op.clone map) }, st')

/-! ### Generic helpers about list reads and writes -/

theorem getq_set_self {α : Type} {l : List α} {i : Nat} (a : α) (h : i < l.length) :
    (l.set i a).get? i = some a := by
  rw [List.get?_set_eq, List.get?_eq_get h]
  rfl

theorem getq_set_ne {α : Type} {l : List α} {i j : Nat} (a : α) (h : i ≠ j) :
    (l.set i a).get? j = l.get? j :=
  List.get?_set_ne a l h

theorem getq_lt {α : Type} {l : List α} {i : Nat} {a : α} (h : l.get? i = some a) :
    i < l.length := by
  rcases List.get?_eq_some.mp h with ⟨h', _⟩
  exact h'

/-! ### Unfolding equations for the accessors -/

theorem rank_def (s : TensorStorage) : s.rank = s.buffer_.dims.length := rfl

theorem storage_is_allocated_def (s : TensorStorage) :
    s.is_allocated = s.buffer_.data.isSome := rfl

theorem tensor_is_allocated_def (t : Tensor) :
    t.is_allocated = t.buffer_.data.isSome := rfl

/-! ### Claim C7 (add_use contract violations) -/

/-- Claim C7 (amended): on a storage whose type and rank have been fixed by a first use
(positive rank), an add_use call with a differing type or rank fails fast, as does any
add_use call made after the storage is allocated; under matching type and rank before
allocation no failure occurs.  An add_use call on a storage whose rank is not yet fixed
(zero dimensions) never fails — it seeds the buffer — even when that degenerate storage
was already allocated. -/
theorem add_use_contract (s : TensorStorage) (ty : HalideType) (bounds : Box) :
    (0 < s.rank → (s.buffer_.type ≠ ty ∨ s.rank ≠ bounds.length) →
      s.add_use ty bounds = none) ∧
    (0 < s.rank → s.is_allocated = true → s.add_use ty bounds = none) ∧
    (s.buffer_.type = ty → s.rank = bounds.length → s.is_allocated = false →
      ∃ s', s.add_use ty bounds = some s') ∧
    (s.rank = 0 → ∃ s', s.add_use ty bounds = some s') := by
  have hne : 0 < s.rank → ¬(s.buffer_.dimensions = 0) := by
    rw [rank_def]
    intro h0 h
    rw [HBuffer.dimensions] at h
    omega
  refine ⟨?_, ?_, ?_, ?_⟩
  · intro h0 hmis
    unfold TensorStorage.add_use
    rw [if_neg (hne h0), if_neg]
    rintro ⟨h1, h2, -⟩
    rcases hmis with h | h
    · exact h h1
    · exact h h2
  · intro h0 halloc
    unfold TensorStorage.add_use
    rw [if_neg (hne h0), if_neg]
    rintro ⟨-, -, h3⟩
    rw [storage_is_allocated_def, h3] at halloc
    simp at halloc
  · intro hty hrk hna
    unfold TensorStorage.add_use
    by_cases h1 : s.buffer_.dimensions = 0
    · rw [if_pos h1]
      exact ⟨_, rfl⟩
    · have hd : s.buffer_.data = none := by
        rw [storage_is_allocated_def] at hna
        cases hd : s.buffer_.data with
        | none => rfl
        | some v => rw [hd] at hna; simp at hna
      rw [if_neg h1, if_pos ⟨hty, hrk, hd⟩]
      exact ⟨_, rfl⟩
  · intro h0
    unfold TensorStorage.add_use
    rw [if_pos (by rw [rank_def] at h0; exact h0)]
    exact ⟨_, rfl⟩

/-- Claim C7 counterexample: a default (never used, zero-rank) storage allocated before
any use registers; the subsequent add_use call succeeds — even discarding the existing
allocation — instead of failing fast. -/
theorem add_use_contract_cex :
    (TensorStorage.allocate TensorStorage.empty 0).is_allocated = true ∧
    TensorStorage.add_use (TensorStorage.allocate TensorStorage.empty 0)
        ⟨1, 8, 1⟩ [⟨0, 3⟩] =
      some { buffer_ := { type := ⟨1, 8, 1⟩, dims := [⟨0, 3⟩], data := none } } := by
  constructor
  · rfl
  · decide

/-- Claim C7 witness: a concrete run of each part of add_use_contract. -/
theorem add_use_contract_witness :
    TensorStorage.add_use ⟨⟨⟨1, 8, 1⟩, [⟨0, 3⟩], none⟩⟩ ⟨1, 16, 1⟩ [⟨0, 3⟩] = none ∧
    TensorStorage.add_use ⟨⟨⟨1, 8, 1⟩, [⟨0, 3⟩], some 0⟩⟩ ⟨1, 8, 1⟩ [⟨0, 3⟩] = none ∧
    (∃ s', TensorStorage.add_use ⟨⟨⟨1, 8, 1⟩, [⟨0, 3⟩], none⟩⟩ ⟨1, 8, 1⟩ [⟨1, 5⟩] = some s') :=
  ⟨(add_use_contract _ _ _).1 (by decide) (Or.inl (by decide)),
   (add_use_contract _ _ _).2.1 (by decide) (by decide),
   (add_use_contract _ _ _).2.2.1 (by decide) (by decide) (by decide)⟩

/-! ### Claim C8 (allocation idempotence) -/

/-- Claim C8: TensorStorage::allocate is idempotent — a second call returns the very
same buffer — and the first call materializes a buffer with exactly the current type and
(possibly unioned) bounds; a tensor built from a populated buffer is allocated and
constant immediately, and Tensor::allocate on any already-allocated tensor is a no-op
leaving the whole state unchanged. -/
theorem allocate_idempotent :
    (∀ (s : TensorStorage) (f1 f2 : Nat), (s.allocate f1).allocate f2 = s.allocate f1) ∧
    (∀ (s : TensorStorage) (f : Nat),
      (s.allocate f).buffer_.type = s.buffer_.type ∧
      (s.allocate f).buffer_.dims = s.buffer_.dims ∧
      (s.allocate f).is_allocated = true) ∧
    (∀ (name : String) (buf : HBuffer) (q : QuantizationInfo), buf.data.isSome = true →
      (Tensor.make name buf q).is_allocated = true ∧
      (Tensor.make name buf q).is_constant_ = true) ∧
    (∀ (st : State) (tid : Nat) (t : Tensor) (f : Nat),
      st.getT tid = some t → t.is_allocated = true →
      Tensor.allocateM tid f st = some st) := by
  refine ⟨?_, ?_, ?_, ?_⟩
  · intro s f1 f2
    unfold TensorStorage.allocate HBuffer.make_with_shape_of
    cases hd : s.buffer_.data <;> simp [hd]
  · intro s f
    unfold TensorStorage.allocate HBuffer.make_with_shape_of
    cases hd : s.buffer_.data <;> simp [hd, storage_is_allocated_def]
  · intro name buf q hd
    exact ⟨by rw [tensor_is_allocated_def]; exact hd, by simp [Tensor.make, hd]⟩
  · intro st tid t f ht halloc
    rw [tensor_is_allocated_def] at halloc
    simp [Tensor.allocateM, ht, halloc]

/-- Claim C8 witness: concrete runs of each part of allocate_idempotent. -/
theorem allocate_idempotent_witness :
    ((Tensor.make "c" ⟨⟨1, 8, 1⟩, [⟨0, 3⟩], some 0⟩ ⟨0⟩).is_allocated = true ∧
      (Tensor.make "c" ⟨⟨1, 8, 1⟩, [⟨0, 3⟩], some 0⟩ ⟨0⟩).is_constant_ = true) ∧
    Tensor.allocateM 0 7 ⟨[Tensor.make "c" ⟨⟨1, 8, 1⟩, [⟨0, 3⟩], some 0⟩ ⟨0⟩], []⟩ =
      some ⟨[Tensor.make "c" ⟨⟨1, 8, 1⟩, [⟨0, 3⟩], some 0⟩ ⟨0⟩], []⟩ :=
  ⟨allocate_idempotent.2.2.1 "c" _ ⟨0⟩ rfl,
   allocate_idempotent.2.2.2 _ 0 _ 7 rfl rfl⟩

/-! ### Claim C9 (insertion anchors and fallbacks) -/

theorem insertTensorL_found : ∀ (l1 l2 : List Nat) (t a : Nat), a ∉ l1 →
    insertTensorL (l1 ++ a :: l2) t a = l1 ++ a :: t :: l2 := by
  intro l1
  induction l1 with
  | nil => intro l2 t a _; simp [insertTensorL]
  | cons x xs ih =>
    intro l2 t a ha
    have h1 : (x == a) = false := by
      rw [beq_eq_false_iff_ne]
      intro h
      exact ha (by rw [h]; exact List.mem_cons_self a xs)
    simp [insertTensorL, h1, ih l2 t a (fun h => ha (List.mem_cons_of_mem x h))]

theorem insertTensorL_missing : ∀ (l : List Nat) (t a : Nat), a ∉ l →
    insertTensorL l t a = l ++ [t] := by
  intro l
  induction l with
  | nil => intro t a _; rfl
  | cons x xs ih =>
    intro t a ha
    have h1 : (x == a) = false := by
      rw [beq_eq_false_iff_ne]
      intro h
      exact ha (by rw [h]; exact List.mem_cons_self a xs)
    simp [insertTensorL, h1, ih t a (fun h => ha (List.mem_cons_of_mem x h))]

theorem insertOpL_eq : ∀ (ops : List Op) (newOp : Op) (before : Nat),
    insertOpL ops newOp before =
      ops.takeWhile (fun x => !insAnchor newOp before x) ++
        newOp :: ops.dropWhile (fun x => !insAnchor newOp before x) := by
  intro ops newOp before
  induction ops with
  | nil => rfl
  | cons x xs ih =>
    by_cases h1 : (x.oid == before) = true
    · simp [insertOpL, h1, List.takeWhile_cons, List.dropWhile_cons, insAnchor]
    · rw [Bool.not_eq_true] at h1
      by_cases h2 : consumes x newOp = true
      · simp [insertOpL, h1, h2, List.takeWhile_cons, List.dropWhile_cons, insAnchor]
      · rw [Bool.not_eq_true] at h2
        simp [insertOpL, h1, h2, List.takeWhile_cons, List.dropWhile_cons, insAnchor, ih]

/-- Claim C9: insert(tensor, after) places the new tensor immediately after a present
anchor and appends on a missing anchor, preserving every existing element and the op
list; insert(op, before) likewise never fails — it always produces the old ops, in
order, with the new op placed at some position. -/
theorem insert_missing_anchor :
    (∀ (m : Model) (l1 l2 : List Nat) (tnew a : Nat),
      m.tensors = l1 ++ a :: l2 → a ∉ l1 →
      (m.insertTensor tnew a).tensors = l1 ++ a :: tnew :: l2 ∧
      (m.insertTensor tnew a).ops = m.ops) ∧
    (∀ (m : Model) (tnew a : Nat), a ∉ m.tensors →
      (m.insertTensor tnew a).tensors = m.tensors ++ [tnew] ∧
      (m.insertTensor tnew a).ops = m.ops) ∧
    (∀ (m : Model) (newOp : Op) (before : Nat), ∃ l1 l2,
      (m.insertOp newOp before).ops = l1 ++ newOp :: l2 ∧ l1 ++ l2 = m.ops ∧
      (m.insertOp newOp before).tensors = m.tensors) := by
  refine ⟨?_, ?_, ?_⟩
  · intro m l1 l2 tnew a hm ha
    exact ⟨by simp [Model.insertTensor, hm, insertTensorL_found l1 l2 tnew a ha], rfl⟩
  · intro m tnew a ha
    exact ⟨by simp [Model.insertTensor, insertTensorL_missing m.tensors tnew a ha], rfl⟩
  · intro m newOp before
    refine ⟨m.ops.takeWhile (fun x => !insAnchor newOp before x),
            m.ops.dropWhile (fun x => !insAnchor newOp before x), ?_, ?_, rfl⟩
    · simp [Model.insertOp, insertOpL_eq]
    · exact List.takeWhile_append_dropWhile _ _

/-- Claim C9 witness: concrete runs of each part of insert_missing_anchor. -/
theorem insert_missing_anchor_witness :
    ((Model.insertTensor ⟨[4, 5, 6], []⟩ 9 5).tensors = [4, 5, 9, 6] ∧
      (Model.insertTensor ⟨[4, 5, 6], []⟩ 9 5).ops = []) ∧
    ((Model.insertTensor ⟨[4, 5, 6], []⟩ 9 7).tensors = [4, 5, 6, 9] ∧
      (Model.insertTensor ⟨[4, 5, 6], []⟩ 9 7).ops = []) :=
  ⟨insert_missing_anchor.1 ⟨[4, 5, 6], []⟩ [4] [6] 9 5 rfl (by decide),
   insert_missing_anchor.2.1 ⟨[4, 5, 6], []⟩ 9 7 (by decide)⟩

/-! ### Claim C2 (op insertion placement) -/

theorem insertOpL_skip : ∀ (l1 rest : List Op) (newOp : Op) (before : Nat),
    (∀ x ∈ l1, insAnchor newOp before x = false) →
    insertOpL (l1 ++ rest) newOp before = l1 ++ insertOpL rest newOp before := by
  intro l1
  induction l1 with
  | nil => intro rest newOp before _; rfl
  | cons x xs ih =>
    intro rest newOp before h
    have hx := h x (List.mem_cons_self x xs)
    rw [insAnchor, Bool.or_eq_false_iff] at hx
    simp [insertOpL, hx.1, hx.2, ih rest newOp before (fun y hy => h y (List.mem_cons_of_mem x hy))]

/-- Claim C2: scanning from the front, insert(op, before) places the new op immediately
before the first earlier op that consumes one of its declared outputs (overriding the
requested anchor and applying only this first correction), otherwise immediately before
the anchor when the anchor is found first, and appends at the end when neither a
consumer nor the anchor occurs in the list. -/
theorem insertOp_placement (m : Model) (newOp : Op) (before : Nat) :
    (∀ l1 C l2, m.ops = l1 ++ C :: l2 →
      (∀ x ∈ l1, x.oid ≠ before ∧ consumes x newOp = false) →
      consumes C newOp = true →
      (m.insertOp newOp before).ops = l1 ++ newOp :: C :: l2) ∧
    (∀ l1 E l2, m.ops = l1 ++ E :: l2 →
      (∀ x ∈ l1, x.oid ≠ before ∧ consumes x newOp = false) →
      E.oid = before →
      (m.insertOp newOp before).ops = l1 ++ newOp :: E :: l2) ∧
    ((∀ x ∈ m.ops, x.oid ≠ before ∧ consumes x newOp = false) →
      (m.insertOp newOp before).ops = m.ops ++ [newOp]) := by
  have hanchor : ∀ (l1 : List Op), (∀ x ∈ l1, x.oid ≠ before ∧ consumes x newOp = false) →
      ∀ x ∈ l1, insAnchor newOp before x = false := by
    intro l1 h x hx
    obtain ⟨h1, h2⟩ := h x hx
    rw [insAnchor, Bool.or_eq_false_iff]
    exact ⟨beq_eq_false_iff_ne.mpr h1, h2⟩
  refine ⟨?_, ?_, ?_⟩
  · intro l1 C l2 hm h hc
    simp only [Model.insertOp, hm]
    rw [insertOpL_skip l1 (C :: l2) newOp before (hanchor l1 h)]
    by_cases h1 : (C.oid == before) = true
    · simp [insertOpL, h1]
    · rw [Bool.not_eq_true] at h1
      simp [insertOpL, h1, hc]
  · intro l1 E l2 hm h he
    simp only [Model.insertOp, hm]
    rw [insertOpL_skip l1 (E :: l2) newOp before (hanchor l1 h)]
    simp [insertOpL, he]
  · intro h
    have hskip := insertOpL_skip m.ops [] newOp before (hanchor m.ops h)
    simp only [List.append_nil] at hskip
    simp [Model.insertOp, hskip, insertOpL]

/-- Claim C2 witness: concrete runs of each part of insertOp_placement. -/
theorem insertOp_placement_witness :
    (Model.insertOp ⟨[], [⟨0, [], []⟩, ⟨1, [9], []⟩, ⟨2, [], []⟩]⟩ ⟨7, [], [9]⟩ 2).ops =
      [⟨0, [], []⟩] ++ ⟨7, [], [9]⟩ :: ⟨1, [9], []⟩ :: [⟨2, [], []⟩] ∧
    (Model.insertOp ⟨[], [⟨0, [], []⟩, ⟨2, [], []⟩]⟩ ⟨7, [], [9]⟩ 2).ops =
      [⟨0, [], []⟩] ++ ⟨7, [], [9]⟩ :: ⟨2, [], []⟩ :: [] ∧
    (Model.insertOp ⟨[], [⟨0, [], []⟩]⟩ ⟨7, [], [9]⟩ 2).ops =
      [⟨0, [], []⟩] ++ [⟨7, [], [9]⟩] :=
  ⟨(insertOp_placement _ _ _).1 [⟨0, [], []⟩] ⟨1, [9], []⟩ [⟨2, [], []⟩] rfl
      (by intro x hx; rw [List.mem_singleton] at hx; subst hx; exact ⟨by decide, by decide⟩)
      (by decide),
   (insertOp_placement _ _ _).2.1 [⟨0, [], []⟩] ⟨2, [], []⟩ [] rfl
      (by intro x hx; rw [List.mem_singleton] at hx; subst hx; exact ⟨by decide, by decide⟩)
      rfl,
   (insertOp_placement _ _ _).2.2
      (by intro x hx; rw [List.mem_singleton] at hx; subst hx; exact ⟨by decide, by decide⟩)⟩

/-! ### Claim C10 (lazy storage creation on a populated tensor fails) -/

/-- Claim C10: the first Tensor::storage() call on a tensor whose buffer already holds
data fails fast (the TensorStorage constructor asserts the seeding buffer has no data),
and consequently set_alias_of targeting such a tensor fails fast too. -/
theorem storage_on_constant_fails (st : State) (tid : Nat) (t : Tensor)
    (ht : st.getT tid = some t) (hs : t.storage_ = none)
    (hd : t.buffer_.data.isSome = true) :
    Tensor.storageM tid st = none ∧
    ∀ aid, Tensor.set_alias_ofM aid tid st = none := by
  have h1 : Tensor.storageM tid st = none := by
    rcases Option.isSome_iff_exists.mp hd with ⟨v, hv⟩
    simp [Tensor.storageM, ht, hs, hv]
  refine ⟨h1, fun aid => ?_⟩
  simp [Tensor.set_alias_ofM, h1]

/-- Claim C10 witness: a concrete constant tensor built from a populated buffer. -/
theorem storage_on_constant_fails_witness :
    Tensor.storageM 0 ⟨[Tensor.make "c" ⟨⟨1, 8, 1⟩, [⟨0, 3⟩], some 0⟩ ⟨0⟩], []⟩ = none ∧
    Tensor.set_alias_ofM 5 0 ⟨[Tensor.make "c" ⟨⟨1, 8, 1⟩, [⟨0, 3⟩], some 0⟩ ⟨0⟩], []⟩ =
      none :=
  by
  have h := storage_on_constant_fails
    ⟨[Tensor.make "c" ⟨⟨1, 8, 1⟩, [⟨0, 3⟩], some 0⟩ ⟨0⟩], []⟩ 0
    (Tensor.make "c" ⟨⟨1, 8, 1⟩, [⟨0, 3⟩], some 0⟩ ⟨0⟩) rfl rfl rfl
  exact ⟨h.1, h.2 5⟩

/-! ### Claim C3 (topological invariant under op insertion) -/

theorem topoValid_iff (ops : List Op) :
    TopoValid ops ↔
      (ops.Pairwise (fun a b => consumes a b = false) ∧
        ∀ x ∈ ops, consumes x x = false) := by
  constructor
  · intro h
    constructor
    · rw [List.pairwise_iff_get]
      intro i j hij
      cases hb : consumes (ops.get i) (ops.get j) with
      | false => rfl
      | true =>
        have := h j.val i.val j.isLt i.isLt (by rw [Fin.eta, Fin.eta]; exact hb)
        omega
    · intro x hx
      rcases List.mem_iff_get.mp hx with ⟨i, rfl⟩
      cases hb : consumes (ops.get i) (ops.get i) with
      | false => rfl
      | true =>
        have := h i.val i.val i.isLt i.isLt (by rw [Fin.eta]; exact hb)
        omega
  · rintro ⟨hp, hs⟩ i j hi hj hc
    rw [List.pairwise_iff_get] at hp
    rcases Nat.lt_trichotomy i j with h | h | h
    · exact h
    · subst h
      rw [hs (ops.get ⟨i, hi⟩) (List.get_mem ops i hi)] at hc
      exact absurd hc (by simp)
    · rw [hp ⟨j, hj⟩ ⟨i, hi⟩ h] at hc
      exact absurd hc (by simp)

/-- Claim C3 counterexample: a valid single-op list [P] where P outputs tensor 5; the
new op N consumes tensor 5; inserting N with anchor P places N before its producer, so
the topological invariant is broken. -/
theorem insertOp_topo_cex :
    TopoValid [⟨0, [], [5]⟩] ∧
    (Model.insertOp ⟨[], [⟨0, [], [5]⟩]⟩ ⟨1, [5], [9]⟩ 0).ops =
      [⟨1, [5], [9]⟩, ⟨0, [], [5]⟩] ∧
    ¬ TopoValid [⟨1, [5], [9]⟩, ⟨0, [], [5]⟩] := by
  refine ⟨?_, by decide, ?_⟩
  · rw [topoValid_iff]
    exact ⟨by decide, by decide⟩
  · intro h
    have := h 1 0 (by decide) (by decide) (by decide)
    omega

/-- Claim C3 (amended): inserting an op preserves the topological invariant provided the
new op consumes no output of its own and no output of any op at or after the position
where it is inserted; with an arbitrary anchor (as in inserting before a producer of one
of the new op's inputs) the invariant can be violated, as the counterexample shows. -/
theorem insertOp_topo_preserved (m : Model) (newOp : Op) (before : Nat)
    (hvalid : TopoValid m.ops)
    (hself : consumes newOp newOp = false)
    (hafter : ∀ x ∈ insertSuffix m.ops newOp before, consumes newOp x = false) :
    TopoValid (m.insertOp newOp before).ops := by
  rw [topoValid_iff] at hvalid ⊢
  obtain ⟨hp, hs⟩ := hvalid
  have hchar : (m.insertOp newOp before).ops =
      m.ops.takeWhile (fun x => !insAnchor newOp before x) ++
        newOp :: insertSuffix m.ops newOp before := by
    simp [Model.insertOp, insertOpL_eq, insertSuffix]
  have hsplit : m.ops.takeWhile (fun x => !insAnchor newOp before x) ++
      insertSuffix m.ops newOp before = m.ops :=
    List.takeWhile_append_dropWhile _ _
  rw [← hsplit, List.pairwise_append] at hp
  obtain ⟨hp1, hp2, hcross⟩ := hp
  rw [hchar]
  constructor
  · rw [List.pairwise_append]
    refine ⟨hp1, ?_, ?_⟩
    · rw [List.pairwise_cons]
      exact ⟨hafter, hp2⟩
    · intro a ha b hb
      rcases List.mem_cons.mp hb with rfl | hb2
      · have := List.mem_takeWhile_imp ha
        simp only [Bool.not_eq_true'] at this
        rw [insAnchor, Bool.or_eq_false_iff] at this
        exact this.2
      · exact hcross a ha b hb2
  · intro x hx
    rcases List.mem_append.mp hx with hx1 | hx2
    · exact hs x (by rw [← hsplit]; exact List.mem_append.mpr (Or.inl hx1))
    · rcases List.mem_cons.mp hx2 with rfl | hx3
      · exact hself
      · exact hs x (by rw [← hsplit]; exact List.mem_append.mpr (Or.inr hx3))

/-- Claim C3 witness: a concrete run of insertOp_topo_preserved. -/
theorem insertOp_topo_preserved_witness :
    TopoValid (Model.insertOp ⟨[], [⟨0, [], [1]⟩]⟩ ⟨2, [], [3]⟩ 5).ops := by
  refine insertOp_topo_preserved ⟨[], [⟨0, [], [1]⟩]⟩ ⟨2, [], [3]⟩ 5 ?_ (by decide) ?_
  · rw [topoValid_iff]
    exact ⟨by decide, by decide⟩
  · intro x hx
    have : insertSuffix [⟨0, [], [1]⟩] ⟨2, [], [3]⟩ 5 = ([] : List Op) := by decide
    rw [this] at hx
    exact absurd hx (List.not_mem_nil x)

/-! ### Claim C4 (add_use bounds union, order independence) -/

theorem make_buffer_eq (ty : HalideType) (b : Box) :
    make_buffer ty b = ⟨ty, b, none⟩ := by
  have h : ∀ iv : Interval,
      ({ min := iv.min, max := iv.min + iv.extent - 1 } : Interval) = iv := by
    intro iv
    obtain ⟨mn, mx⟩ := iv
    simp only [Interval.extent, Interval.mk.injEq, true_and]
    omega
  simp [make_buffer, h]

theorem make_buffer_dims (ty : HalideType) (b : Box) : (make_buffer ty b).dims = b := by
  rw [make_buffer_eq]

theorem boxUnion_comm : ∀ a b : Box, boxUnion a b = boxUnion b a := by
  intro a
  induction a with
  | nil => intro b; cases b <;> rfl
  | cons x xs ih =>
    intro b
    cases b with
    | nil => rfl
    | cons y ys =>
      simp only [boxUnion, List.zipWith_cons_cons] at *
      rw [ih ys]
      congr 1
      rw [Interval.union, Interval.union]
      congr 1 <;> [exact Int.min_comm _ _; exact Int.max_comm _ _]

theorem boxUnion_assoc : ∀ a b c : Box,
    boxUnion (boxUnion a b) c = boxUnion a (boxUnion b c) := by
  intro a
  induction a with
  | nil => intro b c; rfl
  | cons x xs ih =>
    intro b c
    cases b with
    | nil => rfl
    | cons y ys =>
      cases c with
      | nil => rfl
      | cons z zs =>
        simp only [boxUnion, List.zipWith_cons_cons] at *
        rw [ih ys zs]
        congr 1
        rw [Interval.union, Interval.union, Interval.union, Interval.union]
        congr 1 <;> [exact min_assoc _ _ _; exact max_assoc _ _ _]

theorem boxUnion_self : ∀ a : Box, boxUnion a a = a := by
  intro a
  induction a with
  | nil => rfl
  | cons x xs ih =>
    simp only [boxUnion, List.zipWith_cons_cons] at *
    rw [ih]
    congr 1
    rw [Interval.union]
    cases x
    congr 1 <;> simp

theorem foldl_boxUnion_perm : ∀ {l1 l2 : List Box}, l1.Perm l2 →
    ∀ init : Box, l1.foldl boxUnion init = l2.foldl boxUnion init := by
  intro l1 l2 h
  induction h with
  | nil => intro init; rfl
  | cons x _ ih =>
    intro init
    simp only [List.foldl_cons]
    exact ih _
  | swap x y l =>
    intro init
    simp only [List.foldl_cons]
    rw [boxUnion_assoc, boxUnion_assoc, boxUnion_comm y x]
  | trans _ _ ih1 ih2 =>
    intro init
    exact (ih1 init).trans (ih2 init)

theorem foldl_boxUnion_absorb : ∀ (l : List Box) (c init : Box), c ∈ l →
    l.foldl boxUnion (boxUnion init c) = l.foldl boxUnion init := by
  intro l
  induction l with
  | nil => intro c init h; exact absurd h (List.not_mem_nil c)
  | cons a l ih =>
    intro c init h
    rcases List.mem_cons.mp h with rfl | hc
    · simp only [List.foldl_cons]
      rw [boxUnion_assoc, boxUnion_self]
    · simp only [List.foldl_cons]
      rw [show boxUnion (boxUnion init c) a = boxUnion (boxUnion init a) c by
            rw [boxUnion_assoc, boxUnion_assoc, boxUnion_comm c a],
          ih c _ hc]

theorem add_uses_loop (ty : HalideType) : ∀ (bs : List Box) (d : Box),
    0 < d.length → (∀ x ∈ bs, x.length = d.length) →
    TensorStorage.add_uses ⟨⟨ty, d, none⟩⟩ ty bs =
      some ⟨⟨ty, bs.foldl boxUnion d, none⟩⟩ := by
  intro bs
  induction bs with
  | nil => intro d _ _; rfl
  | cons x bs ih =>
    intro d hd h
    have hx : x.length = d.length := h x (List.mem_cons_self x bs)
    have hstep : TensorStorage.add_use ⟨⟨ty, d, none⟩⟩ ty x =
        some ⟨⟨ty, boxUnion d x, none⟩⟩ := by
      unfold TensorStorage.add_use
      rw [if_neg (by simp only [HBuffer.dimensions]; omega),
          if_pos ⟨rfl, by simp only [HBuffer.dimensions]; omega, rfl⟩]
    have hlen : (boxUnion d x).length = d.length := by
      rw [boxUnion, List.length_zipWith]
      omega
    rw [TensorStorage.add_uses, List.foldlM_cons]
    rw [show (TensorStorage.add_use ⟨⟨ty, d, none⟩⟩ ty x) = some ⟨⟨ty, boxUnion d x, none⟩⟩
          from hstep]
    simp only [Option.bind_eq_bind, Option.some_bind]
    rw [show (List.foldlM (fun acc b => acc.add_use ty b) ⟨⟨ty, boxUnion d x, none⟩⟩ bs :
          Option TensorStorage) =
        TensorStorage.add_uses ⟨⟨ty, boxUnion d x, none⟩⟩ ty bs from rfl]
    rw [ih (boxUnion d x) (by omega) (fun y hy => by rw [h y (List.mem_cons_of_mem x hy), hlen])]
    rw [List.foldl_cons]

/-- Claim C4: a sequence of add_use calls with matching type and rank yields, per
dimension, the union of all supplied bounds (min of mins, max of maxes), independently
of the order of the calls; concretely a 1-D storage given min=-2,max=7 then min=0,max=9
ends with min=-2,max=9, extent 12. -/
theorem add_use_union (ty : HalideType) (b : Box) (bs : List Box)
    (hr : ∀ x ∈ bs, x.length = b.length) :
    TensorStorage.add_uses TensorStorage.empty ty (b :: bs) =
      some ⟨⟨ty, bs.foldl boxUnion b, none⟩⟩ ∧
    (∀ l', (b :: bs).Perm l' →
      TensorStorage.add_uses TensorStorage.empty ty l' =
        TensorStorage.add_uses TensorStorage.empty ty (b :: bs)) ∧
    TensorStorage.add_uses TensorStorage.empty ty [[⟨-2, 7⟩], [⟨0, 9⟩]] =
      some ⟨⟨ty, [⟨-2, 9⟩], none⟩⟩ ∧
    Interval.extent ⟨-2, 9⟩ = 12 := by
  have hfirst : ∀ c : Box, TensorStorage.add_use TensorStorage.empty ty c =
      some ⟨⟨ty, c, none⟩⟩ := by
    intro c
    unfold TensorStorage.add_use
    rw [if_pos (by rfl), make_buffer_eq]
  have hmain : ∀ (c : Box) (cs : List Box), (∀ x ∈ cs, x.length = c.length) →
      TensorStorage.add_uses TensorStorage.empty ty (c :: cs) =
        some ⟨⟨ty, cs.foldl boxUnion c, none⟩⟩ := by
    intro c cs hlen
    rw [TensorStorage.add_uses, List.foldlM_cons, hfirst c]
    simp only [Option.bind_eq_bind, Option.some_bind]
    by_cases hc : 0 < c.length
    · exact add_uses_loop ty cs c hc hlen
    · have hc0 : c = [] := List.length_eq_zero.mp (by omega)
      subst hc0
      have : ∀ cs' : List Box, (∀ x ∈ cs', x.length = 0) →
          (List.foldlM (fun acc b => acc.add_use ty b) (⟨⟨ty, [], none⟩⟩ : TensorStorage) cs' :
            Option TensorStorage) = some ⟨⟨ty, cs'.foldl boxUnion [], none⟩⟩ := by
        intro cs'
        induction cs' with
        | nil => intro _; rfl
        | cons z zs ihz =>
          intro hz
          have hz0 : z = [] := List.length_eq_zero.mp (hz z (List.mem_cons_self z zs))
          subst hz0
          rw [List.foldlM_cons]
          rw [show TensorStorage.add_use ⟨⟨ty, [], none⟩⟩ ty [] = some ⟨⟨ty, [], none⟩⟩
                from rfl]
          simp only [Option.bind_eq_bind, Option.some_bind]
          rw [ihz (fun y hy => hz y (List.mem_cons_of_mem _ hy))]
          rfl
      exact this cs (fun x hx => by rw [hlen x hx]; omega)
  have hA := hmain b bs hr
  have hconc : TensorStorage.add_uses TensorStorage.empty ty [[⟨-2, 7⟩], [⟨0, 9⟩]] =
      some ⟨⟨ty, [⟨-2, 9⟩], none⟩⟩ := by
    have h3 := hmain [⟨-2, 7⟩] [[⟨0, 9⟩]]
      (by intro x hx; rw [List.mem_singleton] at hx; subst hx; rfl)
    have hfold : List.foldl boxUnion [(⟨-2, 7⟩ : Interval)] [[⟨0, 9⟩]] = [⟨-2, 9⟩] := by
      decide
    rw [h3, hfold]
  refine ⟨hA, ?_, hconc, by decide⟩
  intro l' hperm
  cases l' with
  | nil => exact absurd hperm.length_eq (by simp)
  | cons c cs =>
    have hmemc : c ∈ b :: bs := hperm.symm.subset (List.mem_cons_self c cs)
    have hmemb : b ∈ c :: cs := hperm.subset (List.mem_cons_self b bs)
    have hlen' : ∀ x ∈ cs, x.length = c.length := by
      intro x hx
      have hxm : x ∈ b :: bs := hperm.symm.subset (List.mem_cons_of_mem c hx)
      have hcl : c.length = b.length := by
        rcases List.mem_cons.mp hmemc with rfl | hcb
        · rfl
        · exact hr c hcb
      rcases List.mem_cons.mp hxm with rfl | hxb
      · omega
      · rw [hr x hxb]; omega
    have hfe : List.foldl boxUnion c cs = List.foldl boxUnion b bs := by
      have e1 : List.foldl boxUnion c cs = List.foldl boxUnion c (c :: cs) := by
        rw [List.foldl_cons, boxUnion_self]
      have e2 : List.foldl boxUnion b bs = List.foldl boxUnion b (b :: bs) := by
        rw [List.foldl_cons, boxUnion_self]
      rw [e1, e2, foldl_boxUnion_perm hperm b]
      rw [List.foldl_cons, List.foldl_cons, boxUnion_self]
      rcases List.mem_cons.mp hmemb with rfl | hbc
      · rw [boxUnion_self]
      · rw [boxUnion_comm b c]
        exact (foldl_boxUnion_absorb cs b c hbc).symm
    rw [hmain c cs hlen', hA, hfe]

/-- Claim C4 witness: a concrete run of add_use_union on the spec's example. -/
theorem add_use_union_witness :
    TensorStorage.add_uses TensorStorage.empty ⟨1, 8, 1⟩ [[⟨-2, 7⟩], [⟨0, 9⟩]] =
      some ⟨⟨⟨1, 8, 1⟩, [[⟨0, 9⟩]].foldl boxUnion [⟨-2, 7⟩], none⟩⟩ ∧
    TensorStorage.add_uses TensorStorage.empty ⟨1, 8, 1⟩ [[⟨0, 9⟩], [⟨-2, 7⟩]] =
      TensorStorage.add_uses TensorStorage.empty ⟨1, 8, 1⟩ [[⟨-2, 7⟩], [⟨0, 9⟩]] := by
  have h := add_use_union ⟨1, 8, 1⟩ [⟨-2, 7⟩] [[⟨0, 9⟩]]
    (by intro x hx; rw [List.mem_singleton] at hx; subst hx; rfl)
  exact ⟨h.1, h.2.1 [[⟨0, 9⟩], [⟨-2, 7⟩]] (List.Perm.swap _ _ _)⟩

/-! ### Storage resolution and bounds-covering helpers -/

theorem getT_def (st : State) (tid : Nat) : st.getT tid = st.tensors.get? tid := rfl

theorem getS_def (st : State) (sid : Nat) : st.getS sid = st.storages.get? sid := rfl

theorem setT_tensors (st : State) (tid : Nat) (t : Tensor) :
    (st.setT tid t).tensors = st.tensors.set tid t := rfl

theorem setT_storages (st : State) (tid : Nat) (t : Tensor) :
    (st.setT tid t).storages = st.storages := rfl

theorem setS_tensors (st : State) (sid : Nat) (s : TensorStorage) :
    (st.setS sid s).tensors = st.tensors := rfl

theorem setS_storages (st : State) (sid : Nat) (s : TensorStorage) :
    (st.setS sid s).storages = st.storages.set sid s := rfl

theorem storageM_cases (tid : Nat) (st : State) (sid : Nat) (st1 : State)
    (h : Tensor.storageM tid st = some (sid, st1)) :
    ∃ t, st.getT tid = some t ∧
      ((t.storage_ = some sid ∧ st1 = st) ∨
       (t.storage_ = none ∧ t.buffer_.data = none ∧ sid = st.storages.length ∧
        st1 = { tensors := st.tensors.set tid { t with storage_ := some sid },
                storages := st.storages ++ [{ buffer_ := t.buffer_ }] })) := by
  unfold Tensor.storageM at h
  cases hgt : st.getT tid with
  | none => rw [hgt] at h; simp at h
  | some t =>
    rw [hgt] at h
    simp only [Option.bind_eq_bind, Option.some_bind] at h
    refine ⟨t, rfl, ?_⟩
    cases hst : t.storage_ with
    | some sid0 =>
      rw [hst] at h
      simp only [pure, Option.some.injEq, Prod.mk.injEq] at h
      obtain ⟨h1, h2⟩ := h
      exact Or.inl ⟨by rw [h1], h2.symm⟩
    | none =>
      rw [hst] at h
      by_cases hd : t.buffer_.data = none
      · rw [if_pos hd] at h
        simp only [pure, Option.some.injEq, Prod.mk.injEq] at h
        obtain ⟨h1, h2⟩ := h
        subst h1
        exact Or.inr ⟨rfl, hd, rfl, by rw [← h2]; rfl⟩
      · rw [if_neg hd] at h
        simp at h

theorem covers_refl (b : Box) : covers b b :=
  List.forall₂_same.mpr (fun _ _ => ⟨le_refl _, le_refl _⟩)

theorem covers_length {o i : Box} (h : covers o i) : o.length = i.length :=
  List.Forall₂.length_eq h

theorem covers_boxUnion_left : ∀ (d x : Box), d.length = x.length →
    covers (boxUnion d x) x := by
  intro d
  induction d with
  | nil =>
    intro x hlen
    rw [(List.length_eq_zero.mp hlen.symm : x = [])]
    exact List.Forall₂.nil
  | cons d0 d' ih =>
    intro x hlen
    cases x with
    | nil => simp at hlen
    | cons x0 x' =>
      refine List.Forall₂.cons ⟨?_, ?_⟩ (ih x' (by simpa using hlen))
      · exact min_le_right _ _
      · exact le_max_right _ _

theorem covers_boxUnion_mono : ∀ {d c : Box} (x : Box), d.length = x.length →
    covers d c → covers (boxUnion d x) c := by
  intro d c x hlen hc
  induction hc generalizing x with
  | nil =>
    rw [(List.length_eq_zero.mp hlen.symm : x = [])]
    exact List.Forall₂.nil
  | @cons d0 c0 d' c' hrel htail ih =>
    cases x with
    | nil => simp at hlen
    | cons x0 x' =>
      refine List.Forall₂.cons ⟨?_, ?_⟩ (ih x' (by simpa using hlen))
      · exact le_trans (min_le_left _ _) hrel.1
      · exact le_trans hrel.2 (le_max_left _ _)

/-- What add_use guarantees about coverage: if the storage's bounds covered some box
already, the grown bounds cover both that box and the newly registered one (given the
two boxes have equal rank, which rules out the degenerate rank-zero reseed losing it). -/
theorem add_use_covers (s0 s1 : TensorStorage) (ty : HalideType) (box bbox : Box)
    (h : s0.add_use ty box = some s1) (hcov : covers s0.buffer_.dims bbox)
    (hrank : box.length = bbox.length) :
    covers s1.buffer_.dims box ∧ covers s1.buffer_.dims bbox := by
  unfold TensorStorage.add_use at h
  by_cases h0 : s0.buffer_.dimensions = 0
  · rw [if_pos h0] at h
    have hb0 : bbox = [] := by
      have := covers_length hcov
      rw [HBuffer.dimensions] at h0
      exact List.length_eq_zero.mp (by omega)
    have hx0 : box = [] := List.length_eq_zero.mp (by rw [hrank, hb0]; rfl)
    have hs1 : s1 = ⟨⟨ty, box, none⟩⟩ := by
      rw [make_buffer_eq] at h
      exact (Option.some.injEq .. ▸ h).symm
    rw [hs1, hx0, hb0]
    exact ⟨List.Forall₂.nil, List.Forall₂.nil⟩
  · rw [if_neg h0] at h
    by_cases h1 : s0.buffer_.type = ty ∧ s0.buffer_.dimensions = box.length ∧
        s0.buffer_.data = none
    · rw [if_pos h1] at h
      have hs1 : s1 = ⟨{ s0.buffer_ with dims := boxUnion s0.buffer_.dims box }⟩ :=
        (Option.some.injEq .. ▸ h).symm
      have hlen : s0.buffer_.dims.length = box.length := by
        have := h1.2.1
        rw [HBuffer.dimensions] at this
        exact this
      rw [hs1]
      exact ⟨covers_boxUnion_left s0.buffer_.dims box hlen,
             covers_boxUnion_mono box hlen hcov⟩
    · rw [if_neg h1] at h
      simp at h

theorem cropLoop_of_covers : ∀ {d o : List Interval}, covers d o → cropLoop d o = some o := by
  intro d o h
  induction h with
  | nil => rfl
  | cons hrel htail ih =>
    simp only [cropLoop]
    rw [if_pos hrel, ih]
    rfl

theorem cropLoop_some_covers : ∀ (d o r : List Interval), d.length = o.length →
    cropLoop d o = some r → covers d o := by
  intro d
  induction d with
  | nil =>
    intro o r hlen _
    rw [(List.length_eq_zero.mp hlen.symm : o = [])]
    exact List.Forall₂.nil
  | cons sd sdims ih =>
    intro o r hlen hc
    cases o with
    | nil => simp at hlen
    | cons od odims =>
      simp only [cropLoop] at hc
      by_cases hif : sd.min ≤ od.min ∧ od.max ≤ sd.max
      · rw [if_pos hif] at hc
        cases hrec : cropLoop sdims odims with
        | none => rw [hrec] at hc; simp at hc
        | some r' =>
          exact List.Forall₂.cons hif (ih odims r' (by simpa using hlen) hrec)
      · rw [if_neg hif] at hc
        simp at hc

theorem storage_allocate_buffer (s : TensorStorage) (f : Nat) :
    (s.allocate f).buffer_.dims = s.buffer_.dims ∧
    (s.allocate f).buffer_.type = s.buffer_.type ∧
    (s.allocate f).buffer_.data.isSome = true := by
  unfold TensorStorage.allocate HBuffer.make_with_shape_of
  cases hd : s.buffer_.data <;> simp [hd]

/-! ### Claim C5 (aliasing shares storage and grows bounds) -/

/-- Claim C5: after A.set_alias_of(B) succeeds, A and B are backed by the same Storage
object, and that storage's bounds cover both A's and B's declared bounds dimension by
dimension (it was grown by add_use with A's type and bounds if needed).  The tensors are
assumed to have equal rank and B's pre-existing storage, if any, to cover B's bounds —
the invariants the construction API maintains. -/
theorem set_alias_of_spec (st st' : State) (aid bid : Nat) (a b : Tensor)
    (ha : st.getT aid = some a) (hb : st.getT bid = some b)
    (hrank : a.box.length = b.box.length)
    (hinv : ∀ sid s, b.storage_ = some sid → st.getS sid = some s →
      covers s.buffer_.dims b.box)
    (hrun : Tensor.set_alias_ofM aid bid st = some st') :
    ∃ sid s,
      (∃ a', st'.getT aid = some a' ∧ a'.storage_ = some sid) ∧
      (∃ b', st'.getT bid = some b' ∧ b'.storage_ = some sid) ∧
      st'.getS sid = some s ∧
      covers s.buffer_.dims a.box ∧ covers s.buffer_.dims b.box := by
  unfold Tensor.set_alias_ofM at hrun
  cases hsm : Tensor.storageM bid st with
  | none => rw [hsm] at hrun; simp at hrun
  | some p =>
    obtain ⟨sid, st1⟩ := p
    rw [hsm] at hrun
    simp only [Option.bind_eq_bind, Option.some_bind] at hrun
    obtain ⟨t, hgt, hcase⟩ := storageM_cases bid st sid st1 hsm
    rw [hb] at hgt
    injection hgt with htb
    subst htb
    cases hga : st1.getT aid with
    | none => rw [hga] at hrun; simp at hrun
    | some a1 =>
      rw [hga] at hrun
      simp only [Option.bind_eq_bind, Option.some_bind] at hrun
      cases hgs : (State.setT st1 aid { a1 with storage_ := some sid }).getS sid with
      | none => rw [hgs] at hrun; simp at hrun
      | some s0 =>
        rw [hgs] at hrun
        simp only [Option.bind_eq_bind, Option.some_bind] at hrun
        cases hau : s0.add_use a1.type a1.box with
        | none => rw [hau] at hrun; simp at hrun
        | some s1 =>
          rw [hau] at hrun
          simp only [Option.bind_eq_bind, Option.some_bind, pure, Option.some.injEq] at hrun
          subst hrun
          -- facts about a1
          have haid : aid < st.tensors.length := getq_lt ha
          have hbid : bid < st.tensors.length := getq_lt hb
          have hlen1 : st1.tensors.length = st.tensors.length := by
            rcases hcase with ⟨hbs, rfl⟩ | ⟨hbs, hdata, hlen, rfl⟩
            · rfl
            · exact List.length_set ..
          have ha1 : a1.type = a.type ∧ a1.box = a.box := by
            rcases hcase with ⟨hbs, rfl⟩ | ⟨hbs, hdata, hlen, rfl⟩
            · rw [ha] at hga
              injection hga with h
              rw [← h]
              exact ⟨rfl, rfl⟩
            · by_cases he : aid = bid
              · subst he
                rw [hb] at ha
                injection ha with hab
                subst hab
                simp only [getT_def] at hga
                rw [getq_set_self _ hbid] at hga
                injection hga with h
                rw [← h]
                exact ⟨rfl, rfl⟩
              · simp only [getT_def] at hga
                rw [getq_set_ne _ (fun hx => he hx.symm)] at hga
                rw [getT_def] at ha
                rw [ha] at hga
                injection hga with h
                rw [← h]
                exact ⟨rfl, rfl⟩
          -- the storage read back covers b's box
          have hs0cov : covers s0.buffer_.dims b.box := by
            rcases hcase with ⟨hbs, rfl⟩ | ⟨hbs, hdata, hlen, rfl⟩
            · simp only [getS_def, setT_storages] at hgs
              exact hinv sid s0 hbs (by rw [getS_def]; exact hgs)
            · simp only [getS_def, setT_storages] at hgs
              rw [hlen, List.get?_concat_length] at hgs
              injection hgs with h
              rw [← h]
              exact covers_refl b.box
          have hcov := add_use_covers s0 s1 a1.type a1.box b.box hau hs0cov
            (by rw [ha1.2]; exact hrank)
          refine ⟨sid, s1, ?_, ?_, ?_, ?_, ?_⟩
          · -- a' in the final state
            refine ⟨{ a1 with storage_ := some sid }, ?_, rfl⟩
            simp only [getT_def, setS_tensors, setT_tensors]
            exact getq_set_self _ (by rw [hlen1]; exact haid)
          · -- b' in the final state
            by_cases he : aid = bid
            · subst he
              refine ⟨{ a1 with storage_ := some sid }, ?_, rfl⟩
              simp only [getT_def, setS_tensors, setT_tensors]
              exact getq_set_self _ (by rw [hlen1]; exact hbid)
            · simp only [getT_def, setS_tensors, setT_tensors]
              rw [getq_set_ne _ he]
              rcases hcase with ⟨hbs, rfl⟩ | ⟨hbs, hdata, hlen, rfl⟩
              · exact ⟨b, by rw [getT_def] at hb; exact hb, hbs⟩
              · exact ⟨{ b with storage_ := some sid }, getq_set_self _ hbid, rfl⟩
          · -- the storage in the final state
            simp only [getS_def, setS_storages, setT_storages]
            refine getq_set_self _ ?_
            rcases hcase with ⟨hbs, rfl⟩ | ⟨hbs, hdata, hlen, rfl⟩
            · simp only [getS_def, setT_storages] at hgs
              exact getq_lt hgs
            · rw [hlen, List.length_append]
              simp
          · rw [← ha1.2]
            exact hcov.1
          · exact hcov.2

/-- Claim C5 witness: a concrete aliasing run where the shared storage grows to the
union of both tensors' bounds ([0,3] and [2,5] giving [0,5]). -/
theorem set_alias_of_spec_witness :
    ∃ sid s,
      (∃ a', State.getT
          ⟨[⟨"a", ⟨⟨1, 8, 1⟩, [⟨0, 3⟩], none⟩, ⟨0⟩, false, some 0⟩,
            ⟨"b", ⟨⟨1, 8, 1⟩, [⟨2, 5⟩], none⟩, ⟨0⟩, false, some 0⟩],
           [⟨⟨⟨1, 8, 1⟩, [⟨0, 5⟩], none⟩⟩]⟩ 0 = some a' ∧ a'.storage_ = some sid) ∧
      (∃ b', State.getT
          ⟨[⟨"a", ⟨⟨1, 8, 1⟩, [⟨0, 3⟩], none⟩, ⟨0⟩, false, some 0⟩,
            ⟨"b", ⟨⟨1, 8, 1⟩, [⟨2, 5⟩], none⟩, ⟨0⟩, false, some 0⟩],
           [⟨⟨⟨1, 8, 1⟩, [⟨0, 5⟩], none⟩⟩]⟩ 1 = some b' ∧ b'.storage_ = some sid) ∧
      State.getS
          ⟨[⟨"a", ⟨⟨1, 8, 1⟩, [⟨0, 3⟩], none⟩, ⟨0⟩, false, some 0⟩,
            ⟨"b", ⟨⟨1, 8, 1⟩, [⟨2, 5⟩], none⟩, ⟨0⟩, false, some 0⟩],
           [⟨⟨⟨1, 8, 1⟩, [⟨0, 5⟩], none⟩⟩]⟩ sid = some s ∧
      covers s.buffer_.dims
        (Tensor.box ⟨"a", ⟨⟨1, 8, 1⟩, [⟨0, 3⟩], none⟩, ⟨0⟩, false, none⟩) ∧
      covers s.buffer_.dims
        (Tensor.box ⟨"b", ⟨⟨1, 8, 1⟩, [⟨2, 5⟩], none⟩, ⟨0⟩, false, some 0⟩) := by
  refine set_alias_of_spec
    ⟨[⟨"a", ⟨⟨1, 8, 1⟩, [⟨0, 3⟩], none⟩, ⟨0⟩, false, none⟩,
      ⟨"b", ⟨⟨1, 8, 1⟩, [⟨2, 5⟩], none⟩, ⟨0⟩, false, some 0⟩],
     [⟨⟨⟨1, 8, 1⟩, [⟨2, 5⟩], none⟩⟩]⟩
    ⟨[⟨"a", ⟨⟨1, 8, 1⟩, [⟨0, 3⟩], none⟩, ⟨0⟩, false, some 0⟩,
      ⟨"b", ⟨⟨1, 8, 1⟩, [⟨2, 5⟩], none⟩, ⟨0⟩, false, some 0⟩],
     [⟨⟨⟨1, 8, 1⟩, [⟨0, 5⟩], none⟩⟩]⟩
    0 1
    ⟨"a", ⟨⟨1, 8, 1⟩, [⟨0, 3⟩], none⟩, ⟨0⟩, false, none⟩
    ⟨"b", ⟨⟨1, 8, 1⟩, [⟨2, 5⟩], none⟩, ⟨0⟩, false, some 0⟩
    rfl rfl rfl ?_ (by decide)
  intro sid s h1 h2
  injection h1 with h1
  subst h1
  injection h2 with h2
  rw [← h2]
  exact covers_refl _

/-! ### Claim C6 (Tensor::allocate crops to the declared bounds) -/

/-- Claim C6: on an unallocated tensor, allocate() allocates the backing storage and
replaces the tensor's view with the storage buffer cropped, on every dimension, to
exactly the tensor's declared bounds, sharing the storage's allocation; when the
storage's bounds fail to contain the tensor's bounds (at equal rank) the containment
assertion fires and the operation fails fast — so under the containment precondition
the failure branch is unreachable. -/
theorem tensor_allocate_spec (st st1 : State) (tid sid fresh : Nat) (t : Tensor)
    (s : TensorStorage)
    (ht : st.getT tid = some t) (hna : t.is_allocated = false)
    (hsm : Tensor.storageM tid st = some (sid, st1)) (hgs : st1.getS sid = some s) :
    (covers s.buffer_.dims t.buffer_.dims →
      ∃ st', Tensor.allocateM tid fresh st = some st' ∧
        ∃ t', st'.getT tid = some t' ∧
          t'.buffer_.dims = t.buffer_.dims ∧
          t'.buffer_.type = (s.allocate fresh).buffer_.type ∧
          t'.buffer_.data = (s.allocate fresh).buffer_.data ∧
          t'.is_allocated = true) ∧
    (s.buffer_.dims.length = t.buffer_.dims.length →
      ¬ covers s.buffer_.dims t.buffer_.dims →
      Tensor.allocateM tid fresh st = none) := by
  have hdata : t.buffer_.data.isSome = false := by
    rw [tensor_is_allocated_def] at hna
    exact hna
  have ht' : st.tensors.get? tid = some t := ht
  obtain ⟨t0, hgt0, hcase⟩ := storageM_cases tid st sid st1 hsm
  rw [ht] at hgt0
  injection hgt0 with ht0
  subst ht0
  have hlen1 : st1.tensors.length = st.tensors.length := by
    rcases hcase with ⟨hbs, rfl⟩ | ⟨hbs, hdata2, hlen, rfl⟩
    · rfl
    · exact List.length_set ..
  obtain ⟨t1, hgt1, hbuf1⟩ :
      ∃ t1, st1.getT tid = some t1 ∧ t1.buffer_ = t.buffer_ := by
    rcases hcase with ⟨hbs, rfl⟩ | ⟨hbs, hdata2, hlen, rfl⟩
    · exact ⟨t, ht, rfl⟩
    · refine ⟨{ t with storage_ := some sid }, ?_, rfl⟩
      simp only [getT_def]
      exact getq_set_self _ (getq_lt ht')
  have hred : Tensor.allocateM tid fresh st =
      (cropLoop (s.allocate fresh).buffer_.dims t1.buffer_.dims).bind (fun dims =>
        some ((st1.setS sid (s.allocate fresh)).setT tid
          { t1 with buffer_ := { (s.allocate fresh).buffer_ with dims := dims } })) := by
    unfold Tensor.allocateM
    rw [ht]
    simp only [Option.bind_eq_bind, Option.some_bind, hdata, Bool.false_eq_true,
      if_false, hsm, hgt1, hgs]
    rfl
  have hdims : (s.allocate fresh).buffer_.dims = s.buffer_.dims :=
    (storage_allocate_buffer s fresh).1
  constructor
  · intro hcov
    have hcl : cropLoop (s.allocate fresh).buffer_.dims t1.buffer_.dims =
        some t.buffer_.dims := by
      rw [hdims, hbuf1]
      exact cropLoop_of_covers hcov
    refine ⟨_, by rw [hred, hcl]; rfl, ?_⟩
    refine ⟨{ t1 with buffer_ :=
        { (s.allocate fresh).buffer_ with dims := t.buffer_.dims } }, ?_, rfl, rfl, rfl, ?_⟩
    · simp only [getT_def, setT_tensors]
      refine getq_set_self _ ?_
      rw [setS_tensors, hlen1]
      exact getq_lt ht'
    · rw [tensor_is_allocated_def]
      exact (storage_allocate_buffer s fresh).2.2
  · intro hlen hncov
    have hnone : cropLoop (s.allocate fresh).buffer_.dims t1.buffer_.dims = none := by
      rw [hdims, hbuf1]
      cases hc : cropLoop s.buffer_.dims t.buffer_.dims with
      | none => rfl
      | some r => exact absurd (cropLoop_some_covers _ _ r hlen hc) hncov
    rw [hred, hnone]
    rfl

/-- Claim C6 witness: a concrete allocation of a fresh tensor through its lazily
created storage. -/
theorem tensor_allocate_spec_witness :
    ∃ st', Tensor.allocateM 0 7
        ⟨[⟨"x", ⟨⟨1, 8, 1⟩, [⟨0, 3⟩], none⟩, ⟨0⟩, false, none⟩], []⟩ = some st' ∧
      ∃ t', st'.getT 0 = some t' ∧
        t'.buffer_.dims =
          (Tensor.buffer_ ⟨"x", ⟨⟨1, 8, 1⟩, [⟨0, 3⟩], none⟩, ⟨0⟩, false, none⟩).dims ∧
        t'.buffer_.type =
          ((TensorStorage.allocate ⟨⟨⟨1, 8, 1⟩, [⟨0, 3⟩], none⟩⟩ 7).buffer_).type ∧
        t'.buffer_.data =
          ((TensorStorage.allocate ⟨⟨⟨1, 8, 1⟩, [⟨0, 3⟩], none⟩⟩ 7).buffer_).data ∧
        t'.is_allocated = true :=
  (tensor_allocate_spec
    ⟨[⟨"x", ⟨⟨1, 8, 1⟩, [⟨0, 3⟩], none⟩, ⟨0⟩, false, none⟩], []⟩
    ⟨[⟨"x", ⟨⟨1, 8, 1⟩, [⟨0, 3⟩], none⟩, ⟨0⟩, false, some 0⟩],
     [⟨⟨⟨1, 8, 1⟩, [⟨0, 3⟩], none⟩⟩]⟩
    0 0 7
    ⟨"x", ⟨⟨1, 8, 1⟩, [⟨0, 3⟩], none⟩, ⟨0⟩, false, none⟩
    ⟨⟨⟨1, 8, 1⟩, [⟨0, 3⟩], none⟩⟩
    rfl rfl rfl rfl).1 (covers_refl [⟨0, 3⟩])

/-! ### Claim C1 (model cloning shares allocated tensors, copies unallocated ones) -/

theorem cloneTensors_spec : ∀ (tids : List Nat) (st : State) (map0 : TensorMap),
    (∀ tid ∈ tids, tid < st.tensors.length) → tids.Nodup →
    ∃ ids st' map',
      Model.cloneTensors tids st map0 = some (ids, st', map') ∧
      ids.length = tids.length ∧
      st.tensors.length ≤ st'.tensors.length ∧
      (∀ k, k < st.tensors.length → st'.tensors.get? k = st.tensors.get? k) ∧
      (∀ p ∈ map', p ∈ map0 ∨
        (p.1 ∈ tids ∧ ∃ u, st.tensors.get? p.1 = some u ∧ u.is_allocated = false)) ∧
      (∀ k, k ∉ tids → map'.find? (fun p => p.1 == k) = map0.find? (fun p => p.1 == k)) ∧
      (∀ i tid' nid' (t : Tensor),
        tids.get? i = some tid' → ids.get? i = some nid' →
        st.tensors.get? tid' = some t →
        (t.is_allocated = true → nid' = tid') ∧
        (t.is_allocated = false →
          st.tensors.length ≤ nid' ∧
          st'.tensors.get? nid' = some (Tensor.clone t) ∧
          map'.find? (fun p => p.1 == tid') = some (tid', nid'))) := by
  intro tids
  induction tids with
  | nil =>
    intro st map0 _ _
    refine ⟨[], st, map0, rfl, rfl, le_refl _, fun k _ => rfl,
      fun p hp => Or.inl hp, fun k _ => rfl, ?_⟩
    intro i tid' nid' t hgt _ _
    rw [List.get?_eq_none.mpr (by simp)] at hgt
    exact absurd hgt (by simp)
  | cons tid rest ih =>
    intro st map0 hv hnd
    have htid : tid < st.tensors.length := hv tid (List.mem_cons_self tid rest)
    obtain ⟨t, ht⟩ : ∃ t, st.tensors.get? tid = some t :=
      ⟨_, List.get?_eq_get htid⟩
    rw [List.nodup_cons] at hnd
    obtain ⟨hni, hnd'⟩ := hnd
    by_cases halloc : t.is_allocated = true
    · -- allocated: the tensor is kept shared
      obtain ⟨ids, st', map', hrec, hlen, hgrow, hpres, hmapc, hfind, hpos⟩ :=
        ih st map0 (fun x hx => hv x (List.mem_cons_of_mem _ hx)) hnd'
      refine ⟨tid :: ids, st', map', ?_, by simp [hlen], hgrow, hpres, ?_, ?_, ?_⟩
      · unfold Model.cloneTensors
        rw [ht]
        simp only [Option.bind_eq_bind, Option.some_bind]
        rw [if_pos halloc, hrec]
        rfl
      · intro p hp
        rcases hmapc p hp with hp0 | ⟨hmem, u, hu, hua⟩
        · exact Or.inl hp0
        · exact Or.inr ⟨List.mem_cons_of_mem _ hmem, u, hu, hua⟩
      · intro k hk
        exact hfind k (fun hx => hk (List.mem_cons_of_mem _ hx))
      · intro i tid' nid' u hgt hgi hgu
        cases i with
        | zero =>
          rw [List.get?_cons_zero] at hgt hgi
          injection hgt with e1
          injection hgi with e2
          subst e1
          subst e2
          rw [ht] at hgu
          injection hgu with e3
          subst e3
          exact ⟨fun _ => rfl, fun hf => absurd hf (by rw [halloc]; simp)⟩
        | succ j =>
          rw [List.get?_cons_succ] at hgt hgi
          exact hpos j tid' nid' u hgt hgi hgu
    · -- unallocated: a fresh copy is substituted
      have halloc' : t.is_allocated = false := by
        revert halloc
        cases t.is_allocated <;> simp
      have hv2 : ∀ x ∈ rest,
          x < (st.tensors ++ [Tensor.clone t]).length := by
        intro x hx
        rw [List.length_append]
        have := hv x (List.mem_cons_of_mem _ hx)
        omega
      obtain ⟨ids, st', map', hrec, hlen, hgrow, hpres, hmapc, hfind, hpos⟩ :=
        ih { st with tensors := st.tensors ++ [Tensor.clone t] }
          ((tid, st.tensors.length) :: map0) hv2 hnd'
      have hst2len : (st.tensors ++ [Tensor.clone t]).length = st.tensors.length + 1 := by
        simp
      refine ⟨st.tensors.length :: ids, st', map', ?_, by simp [hlen], ?_, ?_, ?_, ?_, ?_⟩
      · unfold Model.cloneTensors
        rw [ht]
        simp only [Option.bind_eq_bind, Option.some_bind]
        rw [if_neg halloc]
        rw [hrec]
        rfl
      · -- growth
        rw [hst2len] at hgrow
        omega
      · -- low indices preserved
        intro k hk
        rw [hpres k (by rw [hst2len]; omega)]
        exact List.get?_append hk
      · -- keys of the final map
        intro p hp
        rcases hmapc p hp with hp0 | ⟨hmem, u, hu, hua⟩
        · rcases List.mem_cons.mp hp0 with rfl | hp1
          · exact Or.inr ⟨List.mem_cons_self _ _, t, ht, halloc'⟩
          · exact Or.inl hp1
        · have hplt : p.1 < st.tensors.length := hv p.1 (List.mem_cons_of_mem _ hmem)
          rw [List.get?_append hplt] at hu
          exact Or.inr ⟨List.mem_cons_of_mem _ hmem, u, hu, hua⟩
      · -- find? preserved outside the scanned ids
        intro k hk
        have hk1 : tid ≠ k := fun h => hk (by rw [← h]; exact List.mem_cons_self _ _)
        have hk2 : k ∉ rest := fun h => hk (List.mem_cons_of_mem _ h)
        rw [hfind k hk2]
        have hb : ((tid, st.tensors.length).1 == k) = false :=
          beq_eq_false_iff_ne.mpr hk1
        simp only [List.find?_cons, hb]
      · -- per-position behaviour
        intro i tid' nid' u hgt hgi hgu
        cases i with
        | zero =>
          rw [List.get?_cons_zero] at hgt hgi
          injection hgt with e1
          injection hgi with e2
          subst e1
          subst e2
          rw [ht] at hgu
          injection hgu with e3
          subst e3
          refine ⟨fun hf => absurd hf (by rw [halloc']; simp), fun _ => ?_⟩
          refine ⟨le_refl _, ?_, ?_⟩
          · rw [hpres st.tensors.length (by rw [hst2len]; omega)]
            exact List.get?_concat_length ..
          · rw [hfind tid hni]
            have hb : ((tid, st.tensors.length).1 == tid) = true := beq_self_eq_true tid
            simp only [List.find?_cons, hb]
        | succ j =>
          rw [List.get?_cons_succ] at hgt hgi
          have hlt' : tid' < st.tensors.length :=
            hv tid' (List.mem_cons_of_mem _ (List.get?_mem hgt))
          have hgu2 : (st.tensors ++ [Tensor.clone t]).get? tid' = some u := by
            rw [List.get?_append hlt']
            exact hgu
          have hp := hpos j tid' nid' u hgt hgi hgu2
          refine ⟨hp.1, fun hf => ?_⟩
          obtain ⟨hh1, hh2, hh3⟩ := hp.2 hf
          rw [hst2len] at hh1
          exact ⟨by omega, hh2, hh3⟩

/-- Claim C1: cloning a Model (the copy constructor) keeps every already-allocated
tensor as the identical shared heap object in source and clone, substitutes for every
unallocated tensor a fresh independent copy — same name, type, bounds and quantization,
no storage binding yet — recorded in the old-to-new map, and clones every op through
apply over that map, so a cloned op references the fresh copy exactly where the
original referenced an unallocated tensor and the shared original where it was
allocated.  Mutation through the fresh copy is invisible through the original and
vice versa.  (Tensor identities in the model list are assumed valid and distinct.) -/
theorem model_clone_spec (st : State) (m : Model)
    (hv : ∀ tid ∈ m.tensors, tid < st.tensors.length) (hnd : m.tensors.Nodup) :
    ∃ m' st' map, Model.clone m st = some (m', st') ∧
      m'.ops = m.ops.map (Op.clone map) ∧
      m'.tensors.length = m.tensors.length ∧
      ∀ i tid nid (t : Tensor),
        m.tensors.get? i = some tid → m'.tensors.get? i = some nid →
        st.tensors.get? tid = some t →
        (t.is_allocated = true → nid = tid ∧ apply map tid = tid) ∧
        (t.is_allocated = false →
          nid ≠ tid ∧ apply map tid = nid ∧
          st'.tensors.get? nid = some (Tensor.clone t) ∧
          (Tensor.clone t).name_ = t.name_ ∧ (Tensor.clone t).buffer_ = t.buffer_ ∧
          (Tensor.clone t).quantization_ = t.quantization_ ∧
          (Tensor.clone t).storage_ = none ∧
          st'.tensors.get? tid = some t ∧
          (∀ t'', (st'.setT nid t'').getT tid = st'.getT tid) ∧
          (∀ t'', (st'.setT tid t'').getT nid = st'.getT nid)) := by
  obtain ⟨ids, st', map', hrec, hlen, hgrow, hpres, hmapc, hfind, hpos⟩ :=
    cloneTensors_spec m.tensors st [] hv hnd
  refine ⟨⟨ids, m.ops.map (Op.clone map')⟩, st', map', ?_, rfl, hlen, ?_⟩
  · unfold Model.clone
    rw [hrec]
    rfl
  · intro i tid nid t hgt hgi hglob
    have htm : tid ∈ m.tensors := List.get?_mem hgt
    have hp := hpos i tid nid t hgt hgi hglob
    constructor
    · intro hf
      refine ⟨hp.1 hf, ?_⟩
      unfold apply
      cases hfd : map'.find? (fun p => p.1 == tid) with
      | none => rfl
      | some p =>
        have hbq := List.find?_some hfd
        have hpt : p.1 = tid := eq_of_beq hbq
        have hpm := List.mem_of_find?_eq_some hfd
        rcases hmapc p hpm with hp0 | ⟨_, u, hu, hua⟩
        · exact absurd hp0 (List.not_mem_nil p)
        · rw [hpt, hglob] at hu
          injection hu with hu
          rw [← hu] at hua
          rw [hua] at hf
          exact absurd hf (by simp)
    · intro hf
      obtain ⟨hh1, hh2, hh3⟩ := hp.2 hf
      have hne : nid ≠ tid := by
        have := hv tid htm
        omega
      refine ⟨hne, ?_, hh2, rfl, rfl, rfl, rfl, ?_, ?_, ?_⟩
      · unfold apply
        rw [hh3]
      · rw [hpres tid (hv tid htm)]
        exact hglob
      · intro t''
        rw [getT_def, getT_def, setT_tensors]
        exact getq_set_ne _ hne
      · intro t''
        rw [getT_def, getT_def, setT_tensors]
        exact getq_set_ne _ (fun h => hne h.symm)

/-- Claim C1 witness: a concrete model with an allocated tensor W (index 0) and an
unallocated tensor X (index 1) and one op reading both and writing X. -/
theorem model_clone_spec_witness :
    ∃ m' st' map,
      Model.clone ⟨[0, 1], [⟨3, [0, 1], [1]⟩]⟩
        ⟨[⟨"w", ⟨⟨1, 8, 1⟩, [⟨0, 1⟩], some 0⟩, ⟨0⟩, true, none⟩,
          ⟨"x", ⟨⟨1, 8, 1⟩, [⟨0, 1⟩], none⟩, ⟨0⟩, false, none⟩], []⟩ = some (m', st') ∧
      m'.ops = [Op.mk 3 [0, 1] [1]].map (Op.clone map) ∧
      m'.tensors.length = [0, 1].length ∧
      ∀ i tid nid (t : Tensor),
        [0, 1].get? i = some tid → m'.tensors.get? i = some nid →
        [⟨"w", ⟨⟨1, 8, 1⟩, [⟨0, 1⟩], some 0⟩, ⟨0⟩, true, none⟩,
         ⟨"x", ⟨⟨1, 8, 1⟩, [⟨0, 1⟩], none⟩, ⟨0⟩, false, none⟩].get? tid = some t →
        (t.is_allocated = true → nid = tid ∧ apply map tid = tid) ∧
        (t.is_allocated = false →
          nid ≠ tid ∧ apply map tid = nid ∧
          st'.tensors.get? nid = some (Tensor.clone t) ∧
          (Tensor.clone t).name_ = t.name_ ∧ (Tensor.clone t).buffer_ = t.buffer_ ∧
          (Tensor.clone t).quantization_ = t.quantization_ ∧
          (Tensor.clone t).storage_ = none ∧
          st'.tensors.get? tid = some t ∧
          (∀ t'', (st'.setT nid t'').getT tid = st'.getT tid) ∧
          (∀ t'', (st'.setT tid t'').getT nid = st'.getT nid)) :=
  model_clone_spec
    ⟨[⟨"w", ⟨⟨1, 8, 1⟩, [⟨0, 1⟩], some 0⟩, ⟨0⟩, true, none⟩,
      ⟨"x", ⟨⟨1, 8, 1⟩, [⟨0, 1⟩], none⟩, ⟨0⟩, false, none⟩], []⟩
    ⟨[0, 1], [⟨3, [0, 1], [1]⟩]⟩
    (by
      intro tid h
      rw [List.mem_cons, List.mem_singleton] at h
      rcases h with rfl | rfl <;> decide)
    (by decide)

end ModelSpec
